import Mathlib

/-!
Shallow embedding of the task-classifier pipeline and the box-drawing
script, together with theorems checking the specification's claims.

Strings are modelled as lists of character code points (`PyStr`), rational
numbers stand for the Python floats appearing in configuration values and
scores, and real numbers stand for the floats flowing through the
predictor's softmax.
-/

/-- Strings as lists of code points. -/
abbrev PyStr := List Nat

/-- Conversion from a Lean string literal to the code-point model. -/
def str (s : String) : PyStr := s.toList.map Char.toNat

/-! ## Data Preparer (src/task-classifier/data/prepare_data.py) -/

/-- The ASCII whitespace characters matched by Python's regex class and
stripped by `str.strip`: space, tab, newline, carriage return, vertical
tab, form feed. -/
def pyIsSpace (c : Nat) : Bool :=
  c = 32 || c = 9 || c = 10 || c = 13 || c = 11 || c = 12

/-- ASCII lowercasing of one code point, as done by Python's `str.lower`
on the ASCII range. -/
def pyToLower (c : Nat) : Nat := if 65 ≤ c ∧ c ≤ 90 then c + 32 else c

/-- Python's `str.strip()`: drop whitespace from both ends. -/
def pyStrip (l : PyStr) : PyStr :=
  ((l.dropWhile pyIsSpace).reverse.dropWhile pyIsSpace).reverse

/-- The substitution `re.sub(r'\s+', ' ', text)`: each maximal run of
whitespace characters is replaced by a single space.  The boolean flag
records whether the previous character belonged to a whitespace run. -/
def collapseAux : Bool → PyStr → PyStr
  | _, [] => []
  | prevSpace, c :: cs =>
    if pyIsSpace c then
      if prevSpace then collapseAux true cs else 32 :: collapseAux true cs
    else c :: collapseAux false cs

/-- The full substitution `re.sub(r'\s+', ' ', text)` on a whole string. -/
def collapseWS (l : PyStr) : PyStr := collapseAux false l

/-- Function `clean_text` from prepare_data.py: strip, collapse whitespace runs,
lowercase (in that order, as in the source). -/
def clean_text (t : PyStr) : PyStr := (collapseWS (pyStrip t)).map pyToLower

/-- Python's `list.index`: index of the first occurrence (total here; it
is only applied under a membership guarantee, as in the source). -/
def pyIndex [DecidableEq α] : List α → α → Nat
  | [], _ => 0
  | x :: xs, a => if x = a then 0 else pyIndex xs a + 1

/-- A raw input record `{task: ..., query: ...}`; `task = none` models a
record whose "task" field is absent (`item.get("task", "other")`). -/
structure RawRecord where
  task : Option PyStr
  query : PyStr
deriving DecidableEq, Repr

/-- A processed record `{"text": ..., "label": ...}`. -/
structure ProcRecord where
  text : PyStr
  label : Nat
deriving DecidableEq, Repr

/-- The record-processing loop of `prepare_data`: look the task up in the
label list, fall back to the index of "other", and abort the whole run
(`none`) if a task is absent from the list and "other" is not in the
list either. -/
def processRecords (task_labels : List PyStr) : List RawRecord → Option (List ProcRecord)
  | [] => some []
  | item :: rest =>
    let task_type := item.task.getD (str "other")
    if task_type ∈ task_labels then
      (processRecords task_labels rest).map
        (fun tl => ⟨clean_text item.query, pyIndex task_labels task_type⟩ :: tl)
    else if (str "other") ∈ task_labels then
      (processRecords task_labels rest).map
        (fun tl => ⟨clean_text item.query, pyIndex task_labels (str "other")⟩ :: tl)
    else none

/-- One step of the 64-bit linear congruential generator used to model the
seeded pseudo-random stream of Python's `random` module (`random.seed`
followed by `random.shuffle`): the stream is a fixed deterministic
function of the seed, which is the only property the pipeline relies on. -/
def lcgNext (s : Nat) : Nat :=
  (s * 6364136223846793005 + 1442695040888963407) % 2 ^ 64

/-- Draw a number in `[0, n)` from a generator state. -/
def lcgBelow (s n : Nat) : Nat := (s / 2 ^ 33) % n

/-- Swap the elements at positions `i` and `j` of a list (identity when
either index is out of range). -/
def listSwap (l : List α) (i j : Nat) : List α :=
  match l[i]?, l[j]? with
  | some a, some b => (l.set i b).set j a
  | _, _ => l

/-- The backwards Fisher–Yates loop of `random.shuffle`: for
`i = n-1, ..., 1` pick `j` uniformly in `[0, i]` and swap positions `i`
and `j`.  The swap indices come from the seeded generator state; the
first argument counts the remaining iterations. -/
def shuffleAux : Nat → Nat → List α → List α
  | 0, _, l => l
  | i + 1, s, l =>
    shuffleAux i (lcgNext s) (listSwap l (i + 1) (lcgBelow (lcgNext s) (i + 2)))

/-- Model of `random.seed(seed); random.shuffle(l)`: a deterministic
shuffle, a pure function of the seed and the input list. -/
def pyShuffle (seed : Nat) (l : List α) : List α :=
  shuffleAux (l.length - 1) (lcgNext seed) l

/-- The configuration fields used by `prepare_data`:
`config["training"]["seed"]` and `config["data"]["train_split"]`. -/
structure Config where
  seed : Nat
  train_split : ℚ

/-- Python's `int()` on a nonnegative-or-negative rational: truncation
toward zero. -/
def pyInt (q : ℚ) : ℤ := if q < 0 then -⌊-q⌋ else ⌊q⌋

/-- Possible outcomes of a call to `prepare_data`.  `done` stands for a
normal return after the final log statement; the source can never reach
it because that statement references the undefined variable `val_data`
and raises `NameError` (modelled by `nameError`, which carries the
train/test record lists already written to disk at that point). -/
inductive PrepOutcome
  | noInputFile
  | abortNoOther
  | nameError (train test : List ProcRecord)
  | done (train test : List ProcRecord)
deriving DecidableEq, Repr

/-- Function `prepare_data` from prepare_data.py.  `inputExists` models
`os.path.exists(raw_data_path)`; the raw JSON array is `raw_data`.
If the input file is missing the function logs and returns having
written nothing; if a record's task is unmappable it returns having
written nothing; otherwise it shuffles with the configured seed, splits
at `int(data_len * train_split)`, writes `train.json` and `test.json`,
and then raises `NameError` at the final log line (see `PrepOutcome`). -/
def prepare_data (inputExists : Bool) (raw_data : List RawRecord)
    (config : Config) (task_labels : List PyStr) : PrepOutcome :=
  if !inputExists then .noInputFile
  else
    match processRecords task_labels raw_data with
    | none => .abortNoOther
    | some processed_data =>
      let shuffled := pyShuffle config.seed processed_data
      let data_len := shuffled.length
      let train_size := (pyInt ((data_len : ℚ) * config.train_split)).toNat
      .nameError (shuffled.take train_size) (shuffled.drop train_size)

/-- Decimal digits of a natural number, as code points. -/
def natDigits (n : Nat) : PyStr := (toString n).toList.map Char.toNat

/-- JSON string escaping for the quote and backslash characters (the
cleaned texts written by the pipeline are plain ASCII). Modelled from the
Python standard library `json.dump`. -/
def jsonEscape (c : Nat) : PyStr := if c = 34 ∨ c = 92 then [92, c] else [c]

/-- A JSON string literal. -/
def jsonStr (s : PyStr) : PyStr := [34] ++ s.flatMap jsonEscape ++ [34]

/-- One record as serialized by `json.dump(data, f, indent=2)` inside a
top-level array: keys in insertion order, two-space indentation. -/
def jsonRecord (r : ProcRecord) : PyStr :=
  str "\x7b\n    \"text\": " ++ jsonStr r.text ++
    str ",\n    \"label\": " ++ natDigits r.label ++ str "\n  \x7d"

/-- A record array as serialized by `json.dump(data, f, indent=2)`:
the byte content of `train.json` / `test.json`.  Modelled from the Python
standard library serializer, which is a deterministic function of the
record list. -/
def jsonArr : List ProcRecord → PyStr
  | [] => str "[]"
  | r :: rs =>
    str "[\n  " ++ jsonRecord r ++
      rs.flatMap (fun r2 => str ",\n  " ++ jsonRecord r2) ++ str "\n]"

/-- The pair of file contents a `prepare_data` outcome has written:
`none` when the run wrote nothing (missing input, or abort on a label
missing from the list together with a missing "other"). -/
def writtenFiles : PrepOutcome → Option (PyStr × PyStr)
  | .noInputFile => none
  | .abortNoOther => none
  | .nameError train test => some (jsonArr train, jsonArr test)
  | .done train test => some (jsonArr train, jsonArr test)

/-! ## Trainer label mapping (src/task-classifier/model/train.py) -/

/-- The dictionary comprehension `{label: i for i, label in
enumerate(unique_labels)}` as an association list, with the enumeration
starting at `n`. -/
def enumPairs (n : Nat) : List Nat → List (Nat × Nat)
  | [] => []
  | x :: xs => (x, n) :: enumPairs (n + 1) xs

/-- The list `unique_labels = list(set(labels))` from `load_data`: the
distinct label values observed in the input data.  The iteration order of
a Python set is arbitrary; it is modelled by the canonical deduplication
`List.dedup`, and every property proved below is independent of the
enumeration order. -/
def unique_labels (labels : List Nat) : List Nat := labels.dedup

/-- The dictionary `label_to_id` from `load_data`: each distinct observed label mapped to
its enumeration index. -/
def label_to_id (labels : List Nat) : List (Nat × Nat) :=
  enumPairs 0 (unique_labels labels)

/-- The dictionary `id_to_label` as written by `save_model`:
`{str(v): k for k, v in label_to_id.items()}`.  The stringified numeric
keys are modelled by the numbers themselves (the predictor converts them
back with `int(k)`). -/
def id_to_label (l2i : List (Nat × Nat)) : List (Nat × Nat) :=
  l2i.map (fun p => (p.2, p.1))

/-- The count `num_classes = len(unique_labels)`: the `num_labels` value the model
is created with in `main`. -/
def num_classes (labels : List Nat) : Nat := (unique_labels labels).length

/-! ## Trainer epoch loop (src/task-classifier/model/train.py, main) -/

/-- A model snapshot written by the training loop: a best snapshot during
epoch `e` (to `output_dir/best_model`) or the final snapshot (to
`output_dir/final_model`). -/
inductive SaveEvent
  | best (epoch : Nat)
  | final
deriving DecidableEq, Repr

/-- The training loop of `main`, abstracted over the per-epoch validation
F1 scores: starting from `best_f1` at epoch `e`, save a best snapshot
whenever `f1 > best_f1`, then save the final snapshot after the loop. -/
def trainLoopAux : ℚ → Nat → List ℚ → List SaveEvent
  | _, _, [] => [.final]
  | best_f1, e, f1 :: rest =>
    if best_f1 < f1 then .best e :: trainLoopAux f1 (e + 1) rest
    else trainLoopAux best_f1 (e + 1) rest

/-- The whole training loop: `best_f1 = 0.0` initially, epochs numbered
from 0. -/
def trainLoop (f1s : List ℚ) : List SaveEvent := trainLoopAux 0 0 f1s

/-! ## Predictor (src/task-classifier/model/predict.py) -/

/-- The softmax of a logit vector: `exp x_i / Σ_j exp x_j` (the value
computed by `torch.nn.functional.softmax` on one row). -/
noncomputable def softmax (logits : List ℝ) : List ℝ :=
  logits.map (fun x => Real.exp x / (logits.map Real.exp).sum)

/-- The maximum of a list (junk value 0 on the empty list). -/
noncomputable def listMax : List ℝ → ℝ
  | [] => 0
  | x :: xs => xs.foldl max x

/-- Model of `torch.argmax`: the index of the first maximal element. -/
noncomputable def argmaxIdx : List ℝ → Nat
  | [] => 0
  | [_] => 0
  | x :: y :: rest => if listMax (y :: rest) ≤ x then 0 else argmaxIdx (y :: rest) + 1

/-- Method `TaskClassifier.predict`, abstracted over the forward pass: from the
logits, compute softmax probabilities, take the argmax class, read its
probability as the confidence and translate the class through the
bundle's `id_to_label` mapping (a dictionary lookup that can fail). -/
noncomputable def predict (idToLabel : Nat → Option PyStr) (logits : List ℝ) :
    Option (PyStr × ℝ) :=
  let probabilities := softmax logits
  let predicted_class := argmaxIdx probabilities
  match probabilities[predicted_class]?, idToLabel predicted_class with
  | some confidence, some task => some (task, confidence)
  | _, _ => none

/-- The bundle mapping of the spec's predictor example:
`id_to_label = {"0": "translate", "1": "other"}` (keys already converted
to numbers, as `TaskClassifier.__init__` does). -/
def exampleIdToLabel : Nat → Option PyStr :=
  fun i => if i = 0 then some (str "translate")
    else if i = 1 then some (str "other") else none

/-! ## Box-drawing script (src/scripts/draw_boxes.py) -/

/-- An axis-aligned bounding box `[x_min, y_min, x_max, y_max]`. -/
structure Box where
  x_min : ℚ
  y_min : ℚ
  x_max : ℚ
  y_max : ℚ
deriving DecidableEq, Repr

/-- One drawing call issued by the script: a rectangle with corner
coordinates, outline colour and width, or a text overlay at a position
with a fill colour. -/
inductive DrawCmd
  | rectangle (corners : List ℚ) (outline : PyStr) (width : Nat)
  | text (pos : ℚ × ℚ) (content : PyStr) (fill : PyStr)
deriving DecidableEq, Repr

/-- Python's `zip` over three parallel sequences: stops at the shortest. -/
def zip3 : List α → List β → List γ → List (α × β × γ)
  | a :: as_, b :: bs, c :: cs => (a, b, c) :: zip3 as_ bs cs
  | _, _, _ => []

/-- The f-string `{score:.2f}` for the nonnegative scores handled by the
script: the score rounded to two decimal places, with a zero-padded
two-digit fraction.  (At an exact half the float formatter rounds to
even; no score in any statement below sits on a half.) -/
def format2f (q : ℚ) : PyStr :=
  let n : Nat := (⌊q * 100 + 1 / 2⌋).toNat
  natDigits (n / 100) ++ [46] ++
    (if n % 100 < 10 then [48] ++ natDigits (n % 100) else natDigits (n % 100))

/-- The drawing loop: for every `(box, label, score)` triple of the zip,
draw a red rectangle of outline width 3 at the box's corners, then render
the text `label + " (" + format2f score + ")"` in yellow at
`(x_max - 20, y_max - 20)`. -/
def draw_boxes (boxes : List Box) (labels : List PyStr) (scores : List ℚ) :
    List DrawCmd :=
  (zip3 boxes labels scores).flatMap (fun t =>
    [DrawCmd.rectangle [t.1.x_min, t.1.y_min, t.1.x_max, t.1.y_max] (str "red") 3,
     DrawCmd.text (t.1.x_max - 20, t.1.y_max - 20)
       (t.2.1 ++ str " (" ++ format2f t.2.2 ++ str ")") (str "yellow")])

/-- Modelled from the spec: "lowercase and whitespace-normalize the
`query` field" — lowercase the text, strip leading/trailing whitespace,
and collapse every internal whitespace run to a single space, stated in
the spec's order (lowercasing first). -/
def specNormalize (t : PyStr) : PyStr :=
  collapseWS (pyStrip (t.map pyToLower))

/-- The processed record produced from one raw record, assuming no abort:
the loop body of `prepare_data`. -/
def procOne (task_labels : List PyStr) (item : RawRecord) : ProcRecord :=
  let task_type := item.task.getD (str "other")
  if task_type ∈ task_labels then ⟨clean_text item.query, pyIndex task_labels task_type⟩
  else ⟨clean_text item.query, pyIndex task_labels (str "other")⟩

/-! ## Lemmas about the drawing loop -/

theorem draw_boxes_cons (b : Box) (bs : List Box) (lab : PyStr) (ls : List PyStr)
    (s : ℚ) (ss : List ℚ) :
    draw_boxes (b :: bs) (lab :: ls) (s :: ss) =
      DrawCmd.rectangle [b.x_min, b.y_min, b.x_max, b.y_max] (str "red") 3 ::
      DrawCmd.text (b.x_max - 20, b.y_max - 20)
        (lab ++ str " (" ++ format2f s ++ str ")") (str "yellow") ::
      draw_boxes bs ls ss := by
  simp [draw_boxes, zip3]

/-! ## Lemmas about text normalization -/

theorem pyIsSpace_pyToLower (c : Nat) : pyIsSpace (pyToLower c) = pyIsSpace c := by
  unfold pyToLower
  split
  · rename_i h
    have h1 : pyIsSpace (c + 32) = false := by
      simp only [pyIsSpace, Bool.or_eq_false_iff, decide_eq_false_iff_not]
      omega
    have h2 : pyIsSpace c = false := by
      simp only [pyIsSpace, Bool.or_eq_false_iff, decide_eq_false_iff_not]
      omega
    rw [h1, h2]
  · rfl

theorem dropWhile_pyToLower (l : PyStr) :
    (l.map pyToLower).dropWhile pyIsSpace = (l.dropWhile pyIsSpace).map pyToLower := by
  induction l with
  | nil => rfl
  | cons c cs ih =>
    simp only [List.map_cons, List.dropWhile_cons, pyIsSpace_pyToLower]
    by_cases h : pyIsSpace c = true
    · simp [h, ih]
    · simp [h]

theorem pyStrip_pyToLower (l : PyStr) :
    pyStrip (l.map pyToLower) = (pyStrip l).map pyToLower := by
  unfold pyStrip
  rw [dropWhile_pyToLower, ← List.map_reverse, dropWhile_pyToLower, ← List.map_reverse]

theorem pyToLower_space : pyToLower 32 = 32 := by decide

theorem collapseAux_pyToLower (b : Bool) (l : PyStr) :
    collapseAux b (l.map pyToLower) = (collapseAux b l).map pyToLower := by
  induction l generalizing b with
  | nil => rfl
  | cons c cs ih =>
    simp only [List.map_cons, collapseAux, pyIsSpace_pyToLower]
    by_cases h : pyIsSpace c = true
    · cases b <;> simp [h, ih, pyToLower_space]
    · simp [h, ih]

/-- Function `clean_text` (strip, collapse, then lowercase, as in the source) gives
the same result as the spec's description (lowercase first, then strip
and collapse). -/
theorem clean_text_eq_specNormalize (t : PyStr) : clean_text t = specNormalize t := by
  unfold clean_text specNormalize collapseWS
  rw [pyStrip_pyToLower, collapseAux_pyToLower]

/-! ## Lemmas about the record-processing loop -/

theorem processRecords_eq_map (task_labels : List PyStr) (raw : List RawRecord)
    (ps : List ProcRecord) (h : processRecords task_labels raw = some ps) :
    ps = raw.map (procOne task_labels) := by
  induction raw generalizing ps with
  | nil => simp only [processRecords, Option.some_inj] at h; simp [← h]
  | cons item rest ih =>
    simp only [processRecords] at h
    by_cases h1 : item.task.getD (str "other") ∈ task_labels
    · simp only [if_pos h1, Option.map_eq_some'] at h
      obtain ⟨tl, htl, hps⟩ := h
      simp [← hps, ih tl htl, procOne, h1]
    · by_cases h2 : (str "other") ∈ task_labels
      · simp only [if_neg h1, if_pos h2, Option.map_eq_some'] at h
        obtain ⟨tl, htl, hps⟩ := h
        simp [← hps, ih tl htl, procOne, h1]
      · simp [if_neg h1, if_neg h2] at h

theorem processRecords_none_iff (task_labels : List PyStr) (raw : List RawRecord) :
    processRecords task_labels raw = none ↔
      (str "other") ∉ task_labels ∧
        ∃ item ∈ raw, item.task.getD (str "other") ∉ task_labels := by
  induction raw with
  | nil => simp [processRecords]
  | cons item rest ih =>
    simp only [processRecords]
    by_cases h1 : item.task.getD (str "other") ∈ task_labels
    · simp only [if_pos h1, Option.map_eq_none', ih]
      constructor
      · rintro ⟨ho, r, hr, hrt⟩
        exact ⟨ho, r, List.mem_cons_of_mem _ hr, hrt⟩
      · rintro ⟨ho, r, hr, hrt⟩
        rcases List.mem_cons.mp hr with h | h
        · exact absurd (h ▸ h1) hrt
        · exact ⟨ho, r, h, hrt⟩
    · by_cases h2 : (str "other") ∈ task_labels
      · simp only [if_neg h1, if_pos h2, Option.map_eq_none', ih]
        constructor
        · rintro ⟨ho, _⟩; exact absurd h2 ho
        · rintro ⟨ho, _⟩; exact absurd h2 ho
      · simp only [if_neg h1, if_neg h2, true_iff]
        exact ⟨h2, item, List.mem_cons_self _ _, h1⟩

theorem pyIndex_lt_length [DecidableEq α] (l : List α) (a : α) (h : a ∈ l) :
    pyIndex l a < l.length := by
  induction l with
  | nil => cases h
  | cons x xs ih =>
    simp only [pyIndex, List.length_cons]
    by_cases hx : x = a
    · simp [hx]
    · rcases List.mem_cons.mp h with h1 | h1
      · exact absurd h1.symm hx
      · simp only [if_neg hx]
        exact Nat.succ_lt_succ (ih h1)

theorem pyIndex_getElem [DecidableEq α] (l : List α) (a : α) (h : a ∈ l) :
    l[pyIndex l a]? = some a := by
  induction l with
  | nil => cases h
  | cons x xs ih =>
    by_cases hx : x = a
    · simp [pyIndex, hx]
    · rcases List.mem_cons.mp h with h1 | h1
      · exact absurd h1.symm hx
      · simp [pyIndex, hx, ih h1]

theorem pyIndex_of_getElem [DecidableEq α] (l : List α) (a : α) (hnd : l.Nodup)
    (i : Nat) (h : l[i]? = some a) : pyIndex l a = i := by
  induction l generalizing i with
  | nil => simp at h
  | cons x xs ih =>
    rcases List.nodup_cons.mp hnd with ⟨hx, hxs⟩
    cases i with
    | zero =>
      simp only [List.getElem?_cons_zero, Option.some_inj] at h
      simp [pyIndex, h]
    | succ j =>
      simp only [List.getElem?_cons_succ] at h
      have hmem : a ∈ xs := List.getElem?_mem h
      have hne : ¬x = a := fun he => hx (he ▸ hmem)
      simp [pyIndex, hne, ih hxs j h]

/-! ## Lemmas about the seeded shuffle -/

theorem listSwap_length (l : List α) (i j : Nat) :
    (listSwap l i j).length = l.length := by
  unfold listSwap
  cases h1 : l[i]? <;> cases h2 : l[j]? <;> simp

theorem listSwap_mem (l : List α) (i j : Nat) (x : α)
    (h : x ∈ listSwap l i j) : x ∈ l := by
  unfold listSwap at h
  cases h1 : l[i]? with
  | none => rw [h1] at h; exact h
  | some a =>
    cases h2 : l[j]? with
    | none => rw [h1, h2] at h; exact h
    | some b =>
      rw [h1, h2] at h
      have ha : a ∈ l := List.getElem?_mem h1
      have hb : b ∈ l := List.getElem?_mem h2
      rcases List.mem_or_eq_of_mem_set h with h3 | h3
      · rcases List.mem_or_eq_of_mem_set h3 with h4 | h4
        · exact h4
        · exact h4 ▸ hb
      · exact h3 ▸ ha

theorem shuffleAux_length (n s : Nat) (l : List α) :
    (shuffleAux n s l).length = l.length := by
  induction n generalizing s l with
  | zero => rfl
  | succ k ih => rw [shuffleAux, ih, listSwap_length]

theorem shuffleAux_mem (n s : Nat) (l : List α) (x : α)
    (h : x ∈ shuffleAux n s l) : x ∈ l := by
  induction n generalizing s l with
  | zero => exact h
  | succ k ih =>
    rw [shuffleAux] at h
    exact listSwap_mem _ _ _ _ (ih _ _ h)

theorem pyShuffle_length (seed : Nat) (l : List α) :
    (pyShuffle seed l).length = l.length := shuffleAux_length _ _ _

theorem pyShuffle_mem (seed : Nat) (l : List α) (x : α)
    (h : x ∈ pyShuffle seed l) : x ∈ l := shuffleAux_mem _ _ _ _ h

theorem pyInt_of_nonneg (q : ℚ) (h : 0 ≤ q) : pyInt q = ⌊q⌋ := by
  unfold pyInt
  rw [if_neg (not_lt.mpr h)]

/-! ## Lemmas about the label mapping -/

theorem enumPairs_lookup_of_mem (u : List Nat) (n lab : Nat) (h : lab ∈ u) :
    (enumPairs n u).lookup lab = some (n + pyIndex u lab) := by
  induction u generalizing n with
  | nil => cases h
  | cons x xs ih =>
    by_cases hx : x = lab
    · simp [enumPairs, List.lookup, pyIndex, hx]
    · have h1 : lab ∈ xs := by
        rcases List.mem_cons.mp h with h2 | h2
        · exact absurd h2.symm hx
        · exact h2
      have hne : (lab == x) = false := by simp [Ne.symm hx]
      simp only [enumPairs, List.lookup, hne, pyIndex, if_neg hx, ih _ h1]
      congr 1
      omega

theorem enumPairs_lookup_eq_some (u : List Nat) (n lab i : Nat)
    (h : (enumPairs n u).lookup lab = some i) :
    lab ∈ u ∧ i = n + pyIndex u lab := by
  induction u generalizing n with
  | nil => simp [enumPairs, List.lookup] at h
  | cons x xs ih =>
    by_cases hx : x = lab
    · simp only [enumPairs, List.lookup, hx, beq_self_eq_true, Option.some_inj] at h
      simp [hx, pyIndex, ← h]
    · have hne : (lab == x) = false := by simp [Ne.symm hx]
      simp only [enumPairs, List.lookup, hne] at h
      obtain ⟨h1, h2⟩ := ih _ h
      refine ⟨List.mem_cons_of_mem _ h1, ?_⟩
      simp only [pyIndex, if_neg hx]
      omega

theorem enumPairsSwap_lookup_lt (u : List Nat) (n k : Nat) (h : k < n) :
    ((enumPairs n u).map (fun p => (p.2, p.1))).lookup k = none := by
  induction u generalizing n with
  | nil => rfl
  | cons x xs ih =>
    have hne : (k == n) = false := by simp; omega
    simp only [enumPairs, List.map_cons, List.lookup, hne]
    exact ih (n + 1) (by omega)

theorem enumPairsSwap_lookup_add (u : List Nat) (n j : Nat) :
    ((enumPairs n u).map (fun p => (p.2, p.1))).lookup (n + j) = u[j]? := by
  induction u generalizing n j with
  | nil => simp [enumPairs, List.lookup]
  | cons x xs ih =>
    cases j with
    | zero => simp [enumPairs, List.lookup]
    | succ m =>
      have hne : (n + (m + 1) == n) = false := by simp
      simp only [enumPairs, List.map_cons, List.lookup, hne, List.getElem?_cons_succ]
      have : n + (m + 1) = (n + 1) + m := by omega
      rw [this, ih]

theorem enumPairsSwap_lookup_eq_some (u : List Nat) (n k lab : Nat)
    (h : ((enumPairs n u).map (fun p => (p.2, p.1))).lookup k = some lab) :
    n ≤ k ∧ u[k - n]? = some lab := by
  induction u generalizing n with
  | nil => simp [enumPairs, List.lookup] at h
  | cons x xs ih =>
    by_cases hk : k = n
    · simp only [enumPairs, List.map_cons, List.lookup, hk, beq_self_eq_true,
        Option.some_inj] at h
      subst hk
      simp [h]
    · have hne : (k == n) = false := by simp [hk]
      simp only [enumPairs, List.map_cons, List.lookup, hne] at h
      obtain ⟨h1, h2⟩ := ih _ h
      refine ⟨by omega, ?_⟩
      have hkn : k - n = (k - (n + 1)) + 1 := by omega
      rw [hkn, List.getElem?_cons_succ]
      exact h2

/-! ## Lemmas about the training loop -/

theorem trainLoopAux_best_ge (rest : List ℚ) (b : ℚ) (e m : Nat)
    (h : SaveEvent.best m ∈ trainLoopAux b e rest) : e ≤ m := by
  induction rest generalizing b e with
  | nil => simp [trainLoopAux] at h
  | cons f1 tail ih =>
    simp only [trainLoopAux] at h
    by_cases hc : b < f1
    · rw [if_pos hc] at h
      rcases List.mem_cons.mp h with h1 | h1
      · cases h1; omega
      · have := ih f1 (e + 1) h1; omega
    · rw [if_neg hc] at h
      have := ih b (e + 1) h; omega

theorem trainLoopAux_best_iff (rest : List ℚ) (b : ℚ) (e m : Nat) :
    SaveEvent.best (e + m) ∈ trainLoopAux b e rest ↔
      m < rest.length ∧ (rest.take m).foldl max b < rest.getD m 0 := by
  induction rest generalizing b e m with
  | nil =>
    simp [trainLoopAux]
  | cons f1 tail ih =>
    simp only [trainLoopAux]
    by_cases hc : b < f1
    · rw [if_pos hc]
      cases m with
      | zero =>
        simp only [List.mem_cons, List.take_zero, List.foldl_nil, List.getD_cons_zero]
        constructor
        · intro _
          exact ⟨by simp, hc⟩
        · intro _
          left
          rfl
      | succ j =>
        have hstep : e + (j + 1) = (e + 1) + j := by omega
        rw [hstep]
        have hne : (SaveEvent.best ((e + 1) + j) = SaveEvent.best e) ↔ False := by
          simp only [SaveEvent.best.injEq, iff_false]
          omega
        simp only [List.mem_cons, hne, false_or, ih f1 (e + 1) j,
          List.take_succ_cons, List.foldl_cons, List.getD_cons_succ,
          List.length_cons]
        rw [max_eq_right (le_of_lt hc)]
        constructor
        · rintro ⟨h1, h2⟩
          exact ⟨by omega, h2⟩
        · rintro ⟨h1, h2⟩
          exact ⟨by omega, h2⟩
    · rw [if_neg hc]
      cases m with
      | zero =>
        simp only [List.take_zero, List.foldl_nil, List.getD_cons_zero]
        constructor
        · intro h
          have := trainLoopAux_best_ge _ _ _ _ h
          omega
        · intro ⟨_, hlt⟩; exact absurd hlt hc
      | succ j =>
        have hstep : e + (j + 1) = (e + 1) + j := by omega
        simp only [hstep, ih b (e + 1) j, List.take_succ_cons, List.foldl_cons,
          List.getD_cons_succ, List.length_cons]
        rw [max_eq_left (not_lt.mp hc)]
        constructor
        · rintro ⟨h1, h2⟩
          exact ⟨by omega, h2⟩
        · rintro ⟨h1, h2⟩
          exact ⟨by omega, h2⟩

/-! ## Lemmas about softmax and argmax -/

theorem le_foldl_max (xs : List ℝ) (a : ℝ) : a ≤ xs.foldl max a := by
  induction xs generalizing a with
  | nil => simp
  | cons x tail ih =>
    simp only [List.foldl_cons]
    exact le_trans (le_max_left a x) (ih (max a x))

theorem mem_le_foldl_max (xs : List ℝ) (a y : ℝ) (h : y ∈ xs) :
    y ≤ xs.foldl max a := by
  induction xs generalizing a with
  | nil => cases h
  | cons x tail ih =>
    simp only [List.foldl_cons]
    rcases List.mem_cons.mp h with rfl | h1
    · exact le_trans (le_max_right a y) (le_foldl_max tail (max a y))
    · exact ih (max a x) h1

theorem foldl_max_mem (xs : List ℝ) (a : ℝ) : xs.foldl max a = a ∨ xs.foldl max a ∈ xs := by
  induction xs generalizing a with
  | nil => left; rfl
  | cons x tail ih =>
    simp only [List.foldl_cons]
    rcases ih (max a x) with h | h
    · rcases max_choice a x with h1 | h1
      · left; rw [h, h1]
      · right; rw [h, h1]; exact List.mem_cons_self _ _
    · right; exact List.mem_cons_of_mem _ h

theorem foldl_max_comm (xs : List ℝ) (a b : ℝ) :
    xs.foldl max (max a b) = max a (xs.foldl max b) := by
  induction xs generalizing b with
  | nil => rfl
  | cons c cs ih =>
    simp only [List.foldl_cons]
    rw [max_assoc, ih (max b c)]

theorem listMax_mem (l : List ℝ) (h : l ≠ []) : listMax l ∈ l := by
  match l with
  | x :: xs =>
    simp only [listMax]
    rcases foldl_max_mem xs x with h1 | h1
    · rw [h1]; exact List.mem_cons_self _ _
    · exact List.mem_cons_of_mem _ h1

theorem le_listMax (l : List ℝ) (y : ℝ) (h : y ∈ l) : y ≤ listMax l := by
  match l with
  | x :: xs =>
    simp only [listMax]
    rcases List.mem_cons.mp h with h1 | h1
    · exact h1 ▸ le_foldl_max xs x
    · exact mem_le_foldl_max xs x y h1

theorem listMax_cons_cons (x y : ℝ) (rest : List ℝ) :
    listMax (x :: y :: rest) = max x (listMax (y :: rest)) := by
  simp only [listMax, List.foldl_cons]
  rw [← foldl_max_comm]

theorem foldl_max_map (f : ℝ → ℝ) (hf : Monotone f) (xs : List ℝ) (a : ℝ) :
    (xs.map f).foldl max (f a) = f (xs.foldl max a) := by
  induction xs generalizing a with
  | nil => rfl
  | cons x tail ih =>
    simp only [List.map_cons, List.foldl_cons]
    rw [← hf.map_max, ih (max a x)]

theorem listMax_map (f : ℝ → ℝ) (hf : Monotone f) (l : List ℝ) (h : l ≠ []) :
    listMax (l.map f) = f (listMax l) := by
  match l with
  | x :: xs =>
    simp only [List.map_cons, listMax]
    exact foldl_max_map f hf xs x

theorem argmaxIdx_map (f : ℝ → ℝ) (hf : StrictMono f) (l : List ℝ) :
    argmaxIdx (l.map f) = argmaxIdx l := by
  induction l with
  | nil => rfl
  | cons x xs ih =>
    match xs with
    | [] => rfl
    | y :: rest =>
      have hmax : listMax (List.map f (y :: rest)) = f (listMax (y :: rest)) :=
        listMax_map f hf.monotone (y :: rest) (by simp)
      have hcond : (f (listMax (y :: rest)) ≤ f x) ↔ (listMax (y :: rest) ≤ x) :=
        hf.le_iff_le
      simp only [List.map_cons] at hmax ih
      simp only [List.map_cons, argmaxIdx, hmax, hcond, ih]

theorem argmaxIdx_lt_length (l : List ℝ) (h : l ≠ []) : argmaxIdx l < l.length := by
  induction l with
  | nil => exact absurd rfl h
  | cons x xs ih =>
    match xs with
    | [] => simp [argmaxIdx]
    | y :: rest =>
      simp only [argmaxIdx]
      by_cases hc : listMax (y :: rest) ≤ x
      · simp [if_pos hc]
      · rw [if_neg hc]
        have := ih (by simp)
        simp only [List.length_cons] at this ⊢
        omega

theorem getElem_argmaxIdx (l : List ℝ) (h : l ≠ []) :
    l[argmaxIdx l]? = some (listMax l) := by
  induction l with
  | nil => exact absurd rfl h
  | cons x xs ih =>
    match xs with
    | [] => simp [argmaxIdx, listMax]
    | y :: rest =>
      simp only [argmaxIdx]
      by_cases hc : listMax (y :: rest) ≤ x
      · rw [if_pos hc]
        simp only [List.getElem?_cons_zero, Option.some_inj]
        rw [listMax_cons_cons, max_eq_left hc]
      · rw [if_neg hc]
        simp only [List.getElem?_cons_succ]
        rw [ih (by simp), listMax_cons_cons, max_eq_right (le_of_not_le hc)]

theorem softmax_eq_map (logits : List ℝ) :
    softmax logits = logits.map (fun x => Real.exp x / (logits.map Real.exp).sum) := rfl

theorem exp_sum_pos (logits : List ℝ) (h : logits ≠ []) :
    0 < (logits.map Real.exp).sum := by
  have hne : logits.map Real.exp ≠ [] := by simpa using h
  refine List.sum_pos _ (fun x hx => ?_) hne
  obtain ⟨a, _, ha⟩ := List.mem_map.mp hx
  exact ha ▸ Real.exp_pos a

theorem softmax_fun_strictMono (logits : List ℝ) (h : logits ≠ []) :
    StrictMono (fun x => Real.exp x / (logits.map Real.exp).sum) := by
  intro a b hab
  exact div_lt_div_of_pos_right (Real.exp_lt_exp.mpr hab) (exp_sum_pos logits h)

theorem argmaxIdx_softmax (logits : List ℝ) (h : logits ≠ []) :
    argmaxIdx (softmax logits) = argmaxIdx logits := by
  rw [softmax_eq_map]
  exact argmaxIdx_map _ (softmax_fun_strictMono logits h) logits

theorem mem_softmax_bounds (logits : List ℝ) (p : ℝ) (hp : p ∈ softmax logits) :
    0 ≤ p ∧ p ≤ 1 := by
  rw [softmax_eq_map] at hp
  obtain ⟨x, hx, hpx⟩ := List.mem_map.mp hp
  have hne : logits ≠ [] := by rintro rfl; cases hx
  have hS : 0 < (logits.map Real.exp).sum := exp_sum_pos logits hne
  constructor
  · rw [← hpx]
    positivity
  · rw [← hpx]
    rw [div_le_one hS]
    exact List.single_le_sum (fun b hb => by
      obtain ⟨a, _, ha⟩ := List.mem_map.mp hb
      exact ha ▸ (Real.exp_pos a).le) _ (List.mem_map_of_mem Real.exp hx)

theorem trainLoopAux_final (rest : List ℚ) (b : ℚ) (e : Nat) :
    ∃ pre, trainLoopAux b e rest = pre ++ [SaveEvent.final] ∧
      SaveEvent.final ∉ pre := by
  induction rest generalizing b e with
  | nil => exact ⟨[], rfl, by simp⟩
  | cons f1 tail ih =>
    simp only [trainLoopAux]
    by_cases hc : b < f1
    · obtain ⟨pre, hpre, hmem⟩ := ih f1 (e + 1)
      exact ⟨SaveEvent.best e :: pre, by simp [if_pos hc, hpre], by simp [hmem]⟩
    · obtain ⟨pre, hpre, hmem⟩ := ih b (e + 1)
      exact ⟨pre, by simp [if_neg hc, hpre], hmem⟩

/-! ## Claim theorems -/

/-- C1: For every training run, the persisted label mapping is a bijection
between the distinct label values observed in the trainer's input data and
the class ids `0..n-1`: `label_to_id` assigns each distinct observed label
a unique id by enumeration, `id_to_label` is its inverse (mutual inverses
for every key), and the model is created with `num_labels = n`, so every
class id the output layer can produce has an entry in `id_to_label`. -/
theorem C1_label_mapping_bijection (labels : List Nat) :
    (∀ lab, lab ∈ labels ↔ ∃ i, (label_to_id labels).lookup lab = some i) ∧
    (∀ lab i, (label_to_id labels).lookup lab = some i → i < num_classes labels) ∧
    (∀ lab1 lab2 i, (label_to_id labels).lookup lab1 = some i →
      (label_to_id labels).lookup lab2 = some i → lab1 = lab2) ∧
    (∀ lab i, (label_to_id labels).lookup lab = some i →
      (id_to_label (label_to_id labels)).lookup i = some lab) ∧
    (∀ i lab, (id_to_label (label_to_id labels)).lookup i = some lab →
      (label_to_id labels).lookup lab = some i) ∧
    (∀ i, i < num_classes labels ↔
      ∃ lab, (id_to_label (label_to_id labels)).lookup i = some lab) := by
  have hnd : (unique_labels labels).Nodup := List.nodup_dedup labels
  have hmem : ∀ lab, lab ∈ unique_labels labels ↔ lab ∈ labels := by
    intro lab; exact List.mem_dedup
  refine ⟨?_, ?_, ?_, ?_, ?_, ?_⟩
  · intro lab
    constructor
    · intro h
      exact ⟨pyIndex (unique_labels labels) lab,
        by simpa using enumPairs_lookup_of_mem _ 0 lab ((hmem lab).mpr h)⟩
    · rintro ⟨i, hi⟩
      exact (hmem lab).mp (enumPairs_lookup_eq_some _ 0 lab i hi).1
  · intro lab i hi
    obtain ⟨h1, h2⟩ := enumPairs_lookup_eq_some _ 0 lab i hi
    have := pyIndex_lt_length _ lab h1
    unfold num_classes
    omega
  · intro lab1 lab2 i h1 h2
    obtain ⟨hm1, he1⟩ := enumPairs_lookup_eq_some _ 0 lab1 i h1
    obtain ⟨hm2, he2⟩ := enumPairs_lookup_eq_some _ 0 lab2 i h2
    have hg1 := pyIndex_getElem _ lab1 hm1
    have hg2 := pyIndex_getElem _ lab2 hm2
    have : pyIndex (unique_labels labels) lab1 = pyIndex (unique_labels labels) lab2 := by
      omega
    rw [this, hg2] at hg1
    exact (Option.some_inj.mp hg1).symm
  · intro lab i hi
    obtain ⟨h1, h2⟩ := enumPairs_lookup_eq_some _ 0 lab i hi
    have hg := pyIndex_getElem _ lab h1
    have : i = pyIndex (unique_labels labels) lab := by omega
    subst this
    unfold id_to_label label_to_id
    rw [show pyIndex (unique_labels labels) lab =
      0 + pyIndex (unique_labels labels) lab by omega]
    rw [enumPairsSwap_lookup_add]
    exact hg
  · intro i lab hi
    unfold id_to_label label_to_id at hi
    obtain ⟨h1, h2⟩ := enumPairsSwap_lookup_eq_some _ 0 i lab hi
    rw [Nat.sub_zero] at h2
    have hidx := pyIndex_of_getElem _ lab hnd i h2
    have hmem2 : lab ∈ unique_labels labels := List.getElem?_mem h2
    have := enumPairs_lookup_of_mem (unique_labels labels) 0 lab hmem2
    rw [hidx] at this
    simpa using this
  · intro i
    constructor
    · intro h
      unfold num_classes at h
      have h2 : (unique_labels labels)[i]? =
          some ((unique_labels labels).get ⟨i, h⟩) := by
        simp [List.getElem?_eq_getElem h]
      refine ⟨(unique_labels labels).get ⟨i, h⟩, ?_⟩
      unfold id_to_label label_to_id
      have h3 := enumPairsSwap_lookup_add (unique_labels labels) 0 i
      rw [Nat.zero_add] at h3
      exact h3.trans h2
    · rintro ⟨lab, hl⟩
      unfold id_to_label label_to_id at hl
      obtain ⟨h1, h2⟩ := enumPairsSwap_lookup_eq_some _ 0 i lab hl
      rw [Nat.sub_zero, List.getElem?_eq_some] at h2
      unfold num_classes
      exact h2.1

/-- C2: Two runs of the Data Preparer on the same input with configurations
that agree on the seed and the split ratio (the only configuration values
`prepare_data` reads) produce the same outcome and byte-identical
`train.json`/`test.json` contents: the shuffle and split are deterministic
functions of the input and the seed. -/
theorem C2_prepare_data_deterministic (e : Bool) (raw : List RawRecord)
    (c1 c2 : Config) (ls : List PyStr)
    (hseed : c1.seed = c2.seed) (hsplit : c1.train_split = c2.train_split) :
    prepare_data e raw c1 ls = prepare_data e raw c2 ls ∧
    writtenFiles (prepare_data e raw c1 ls) =
      writtenFiles (prepare_data e raw c2 ls) := by
  have hc : c1 = c2 := by
    cases c1; cases c2
    simp_all
  subst hc
  exact ⟨rfl, rfl⟩

/-- Witness for C2 at a concrete input. -/
theorem C2_prepare_data_deterministic_witness :
    prepare_data true [⟨some (str "translate"), str "Hi"⟩] ⟨42, 8/10⟩
        [str "translate", str "other"] =
      prepare_data true [⟨some (str "translate"), str "Hi"⟩] ⟨42, 8/10⟩
        [str "translate", str "other"] :=
  (C2_prepare_data_deterministic true [⟨some (str "translate"), str "Hi"⟩]
    ⟨42, 8/10⟩ ⟨42, 8/10⟩ [str "translate", str "other"] rfl rfl).1

/-- C3: Every processed record's label is the task's index in the
configured label list, or the index of "other" when the task is absent
from the list; if a task is absent and "other" is not in the list,
`prepare_data` aborts without writing; and every record written to
`train.json` or `test.json` carries a label that is a valid index into
the configured label list. -/
theorem C3_label_index (ls : List PyStr) (raw : List RawRecord) (c : Config) :
    (∀ ps, processRecords ls raw = some ps →
      ps = raw.map (procOne ls) ∧
      ∀ item : RawRecord,
        (item.task.getD (str "other") ∈ ls →
          (procOne ls item).label = pyIndex ls (item.task.getD (str "other"))) ∧
        (item.task.getD (str "other") ∉ ls →
          (procOne ls item).label = pyIndex ls (str "other"))) ∧
    ((str "other") ∉ ls →
      (∃ item ∈ raw, item.task.getD (str "other") ∉ ls) →
      prepare_data true raw c ls = .abortNoOther) ∧
    (∀ tr te, prepare_data true raw c ls = .nameError tr te →
      ∀ rec ∈ tr ++ te, rec.label < ls.length) := by
  refine ⟨?_, ?_, ?_⟩
  · intro ps hps
    refine ⟨processRecords_eq_map ls raw ps hps, ?_⟩
    intro item
    constructor
    · intro hin
      simp [procOne, if_pos hin]
    · intro hout
      simp [procOne, if_neg hout]
  · intro ho hbad
    have hnone : processRecords ls raw = none :=
      (processRecords_none_iff ls raw).mpr ⟨ho, hbad⟩
    simp [prepare_data, hnone]
  · intro tr te hrun rec hrec
    simp only [prepare_data, Bool.not_true, Bool.false_eq_true, if_false] at hrun
    cases hproc : processRecords ls raw with
    | none => rw [hproc] at hrun; cases hrun
    | some ps =>
      rw [hproc] at hrun
      simp only [PrepOutcome.nameError.injEq] at hrun
      obtain ⟨htr, hte⟩ := hrun
      have hshuf : rec ∈ pyShuffle c.seed ps := by
        subst htr
        subst hte
        rw [List.take_append_drop] at hrec
        exact hrec
      have hmem : rec ∈ ps := pyShuffle_mem _ _ _ hshuf
      have hmap := processRecords_eq_map ls raw ps hproc
      rw [hmap] at hmem
      obtain ⟨item, _, hrec2⟩ := List.mem_map.mp hmem
      by_cases hin : item.task.getD (str "other") ∈ ls
      · rw [← hrec2]
        simp only [procOne, if_pos hin]
        exact pyIndex_lt_length ls _ hin
      · have ho : (str "other") ∈ ls := by
          by_contra ho
          have : processRecords ls raw = none :=
            (processRecords_none_iff ls raw).mpr ⟨ho, item, ‹item ∈ raw›, hin⟩
          rw [this] at hproc
          cases hproc
        rw [← hrec2]
        simp only [procOne, if_neg hin]
        exact pyIndex_lt_length ls _ ho

/-- Witness for C3 at a concrete run: a record with an unknown task and no
"other" in the label list makes the run abort. -/
theorem C3_label_index_witness :
    prepare_data true [⟨some (str "detect"), str "Hi"⟩] ⟨42, 8/10⟩
      [str "translate"] = .abortNoOther := by
  refine (C3_label_index [str "translate"]
      [⟨some (str "detect"), str "Hi"⟩] ⟨42, 8/10⟩).2.1 ?_ ?_
  · decide
  · exact ⟨⟨some (str "detect"), str "Hi"⟩, by decide, by decide⟩

/-- C4: After shuffling, the Data Preparer writes the first
`floor(L * train_split)` processed records to `train.json` and the rest to
`test.json`; the two files partition the shuffled records and their
lengths sum to the input length. -/
theorem C4_split (raw : List RawRecord) (c : Config) (ls : List PyStr)
    (ps : List ProcRecord) (hps : processRecords ls raw = some ps)
    (h0 : 0 ≤ c.train_split) (h1 : c.train_split ≤ 1) :
    ∃ train test,
      prepare_data true raw c ls = .nameError train test ∧
      train = (pyShuffle c.seed ps).take
        (⌊(raw.length : ℚ) * c.train_split⌋).toNat ∧
      test = (pyShuffle c.seed ps).drop
        (⌊(raw.length : ℚ) * c.train_split⌋).toNat ∧
      train.length = (⌊(raw.length : ℚ) * c.train_split⌋).toNat ∧
      train.length + test.length = raw.length ∧
      train ++ test = pyShuffle c.seed ps := by
  have hlen : ps.length = raw.length := by
    rw [processRecords_eq_map ls raw ps hps, List.length_map]
  have hslen : (pyShuffle c.seed ps).length = raw.length := by
    rw [pyShuffle_length, hlen]
  have hnn : (0:ℚ) ≤ (raw.length : ℚ) * c.train_split :=
    mul_nonneg (by positivity) h0
  have hpi : pyInt ((raw.length : ℚ) * c.train_split) =
      ⌊(raw.length : ℚ) * c.train_split⌋ := pyInt_of_nonneg _ hnn
  have hle : (⌊(raw.length : ℚ) * c.train_split⌋).toNat ≤ raw.length := by
    have hfl : ⌊(raw.length : ℚ) * c.train_split⌋ ≤ (raw.length : ℤ) := by
      have : (raw.length : ℚ) * c.train_split ≤ (raw.length : ℚ) := by
        calc (raw.length : ℚ) * c.train_split ≤ (raw.length : ℚ) * 1 :=
              mul_le_mul_of_nonneg_left h1 (by positivity)
          _ = (raw.length : ℚ) := mul_one _
      calc ⌊(raw.length : ℚ) * c.train_split⌋ ≤ ⌊(raw.length : ℚ)⌋ :=
            Int.floor_le_floor this
        _ = (raw.length : ℤ) := Int.floor_natCast _
    omega
  refine ⟨(pyShuffle c.seed ps).take (⌊(raw.length : ℚ) * c.train_split⌋).toNat,
    (pyShuffle c.seed ps).drop (⌊(raw.length : ℚ) * c.train_split⌋).toNat,
    ?_, rfl, rfl, ?_, ?_, ?_⟩
  · simp only [prepare_data, Bool.not_true, Bool.false_eq_true, if_false, hps]
    rw [hslen, hpi]
  · rw [List.length_take, hslen]
    omega
  · rw [List.length_take, List.length_drop, hslen]
    omega
  · exact List.take_append_drop _ _

/-- Witness for C4 at a concrete run: one record, ratio 8/10. -/
theorem C4_split_witness :
    ∃ train test,
      prepare_data true [⟨some (str "translate"), str "Hi"⟩] ⟨42, 8/10⟩
        [str "translate", str "other"] = .nameError train test ∧
      train.length + test.length = 1 := by
  obtain ⟨train, test, hrun, _, _, _, hsum, _⟩ :=
    C4_split [⟨some (str "translate"), str "Hi"⟩] ⟨42, 8/10⟩
      [str "translate", str "other"] [⟨str "hi", 0⟩] (by decide)
      (by norm_num) (by norm_num)
  exact ⟨train, test, hrun, hsum⟩

/-- C5: The Data Preparer's text normalization lowercases the query,
strips leading/trailing whitespace and collapses every internal
whitespace run to a single space (`clean_text` equals the spec-ordered
normalization on every input); in particular the record
`{"task": "translate", "query": "  Hello   World "}` with label list
`["translate", "other"]` becomes exactly `{"text": "hello world",
"label": 0}` prior to shuffling. -/
theorem C5_clean_text_normalization :
    (∀ t, clean_text t = specNormalize t) ∧
    clean_text (str "  Hello   World ") = str "hello world" ∧
    processRecords [str "translate", str "other"]
        [⟨some (str "translate"), str "  Hello   World "⟩] =
      some [⟨str "hello world", 0⟩] := by
  refine ⟨clean_text_eq_specNormalize, by decide, by decide⟩

/-- C6: For every loaded bundle and every query, `predict` returns the
label of the argmax class under the bundle's `id_to_label` together with
the argmax softmax probability as confidence; that confidence is the
maximum softmax probability and lies in `[0, 1]`.  In particular with
`id_to_label = {"0": "translate", "1": "other"}` and logits `[2.0, 0.1]`
the result is task "translate" with confidence `softmax([2.0, 0.1])[0]`. -/
theorem C6_predict_argmax_confidence :
    (∀ (idl : Nat → Option PyStr) (logits : List ℝ) (task : PyStr),
      logits ≠ [] → idl (argmaxIdx logits) = some task →
      predict idl logits = some (task, listMax (softmax logits)) ∧
      (softmax logits)[argmaxIdx logits]? = some (listMax (softmax logits)) ∧
      0 ≤ listMax (softmax logits) ∧ listMax (softmax logits) ≤ 1 ∧
      ∀ q ∈ softmax logits, q ≤ listMax (softmax logits)) ∧
    (predict exampleIdToLabel [2, 0.1] =
      some (str "translate", listMax (softmax [2, 0.1])) ∧
    (softmax [2, 0.1])[0]? = some (listMax (softmax [2, 0.1]))) := by
  have hgen : ∀ (idl : Nat → Option PyStr) (logits : List ℝ) (task : PyStr),
      logits ≠ [] → idl (argmaxIdx logits) = some task →
      predict idl logits = some (task, listMax (softmax logits)) ∧
      (softmax logits)[argmaxIdx logits]? = some (listMax (softmax logits)) ∧
      0 ≤ listMax (softmax logits) ∧ listMax (softmax logits) ≤ 1 ∧
      ∀ q ∈ softmax logits, q ≤ listMax (softmax logits) := by
    intro idl logits task hne hidl
    have hsne : softmax logits ≠ [] := by
      rw [softmax_eq_map]
      simpa using hne
    have harg : argmaxIdx (softmax logits) = argmaxIdx logits :=
      argmaxIdx_softmax logits hne
    have hget : (softmax logits)[argmaxIdx logits]? =
        some (listMax (softmax logits)) := by
      rw [← harg]
      exact getElem_argmaxIdx _ hsne
    have hmax_mem : listMax (softmax logits) ∈ softmax logits :=
      listMax_mem _ hsne
    obtain ⟨hlb, hub⟩ := mem_softmax_bounds logits _ hmax_mem
    refine ⟨?_, hget, hlb, hub, fun q hq => le_listMax _ q hq⟩
    simp only [predict]
    rw [harg, hget, hidl]
  refine ⟨hgen, ?_⟩
  have hne : ([2, 0.1] : List ℝ) ≠ [] := by simp
  have harg0 : argmaxIdx ([2, 0.1] : List ℝ) = 0 := by
    have h1 : listMax ([0.1] : List ℝ) ≤ 2 := by
      simp only [listMax, List.foldl_nil]
      norm_num
    simp [argmaxIdx, h1]
  have hidl : exampleIdToLabel (argmaxIdx ([2, 0.1] : List ℝ)) =
      some (str "translate") := by
    rw [harg0]
    rfl
  obtain ⟨hp, hg, _, _, _⟩ :=
    hgen exampleIdToLabel [2, 0.1] (str "translate") hne hidl
  rw [harg0] at hg
  exact ⟨hp, hg⟩

/-- Witness for C6: the general part applied at the spec's example bundle
and logits. -/
theorem C6_predict_argmax_confidence_witness :
    predict exampleIdToLabel [2, 0.1] =
      some (str "translate", listMax (softmax [2, 0.1])) ∧
    0 ≤ listMax (softmax [2, 0.1]) ∧ listMax (softmax [2, 0.1]) ≤ 1 := by
  have harg0 : argmaxIdx ([2, 0.1] : List ℝ) = 0 := by
    have h1 : listMax ([0.1] : List ℝ) ≤ 2 := by
      simp only [listMax, List.foldl_nil]
      norm_num
    simp [argmaxIdx, h1]
  obtain ⟨hp, _, hlb, hub, _⟩ :=
    C6_predict_argmax_confidence.1 exampleIdToLabel [2, 0.1] (str "translate")
      (by simp) (by rw [harg0]; rfl)
  exact ⟨hp, hlb, hub⟩

/-- C7: The Trainer saves a best snapshot in epoch `e` exactly when that
epoch's validation F1 strictly improves on the best seen in all earlier
epochs (the running best starts at 0.0), and it saves the final snapshot
exactly once, after the last epoch. -/
theorem C7_best_and_final_snapshots (f1s : List ℚ) :
    (∀ e, SaveEvent.best e ∈ trainLoop f1s ↔
      e < f1s.length ∧ (f1s.take e).foldl max 0 < f1s.getD e 0) ∧
    ∃ pre, trainLoop f1s = pre ++ [SaveEvent.final] ∧
      SaveEvent.final ∉ pre := by
  constructor
  · intro e
    have h := trainLoopAux_best_iff f1s 0 0 e
    rw [Nat.zero_add] at h
    exact h
  · exact trainLoopAux_final f1s 0 0

/-- Witness for C7: on F1 scores `[1/2, 1/4, 3/4]` the loop saves best
snapshots in epochs 0 and 2, none in epoch 1, and ends with the final
save. -/
theorem C7_best_and_final_snapshots_witness :
    SaveEvent.best 0 ∈ trainLoop [1/2, 1/4, 3/4] ∧
    SaveEvent.best 1 ∉ trainLoop [1/2, 1/4, 3/4] ∧
    SaveEvent.best 2 ∈ trainLoop [1/2, 1/4, 3/4] := by
  obtain ⟨hiff, _⟩ := C7_best_and_final_snapshots [1/2, 1/4, 3/4]
  refine ⟨(hiff 0).mpr ⟨by norm_num, by norm_num⟩, ?_, (hiff 2).mpr ⟨by norm_num, ?_⟩⟩
  · intro hmem
    have := (hiff 1).mp hmem
    norm_num at this
  · norm_num

/-- C8: For every `(box, label, score)` triple processed by the
box-drawing script, it draws a red rectangle of outline width 3 at the
box's `[x_min, y_min, x_max, y_max]` corners and renders the text
`"{label} ({score:.2f})"` in yellow at `(x_max - 20, y_max - 20)`. -/
theorem C8_draw_commands (boxes : List Box) (labels : List PyStr)
    (scores : List ℚ) (i : Nat) (b : Box) (lab : PyStr) (s : ℚ)
    (hb : boxes[i]? = some b) (hl : labels[i]? = some lab)
    (hs : scores[i]? = some s) :
    (draw_boxes boxes labels scores)[2 * i]? =
      some (.rectangle [b.x_min, b.y_min, b.x_max, b.y_max] (str "red") 3) ∧
    (draw_boxes boxes labels scores)[2 * i + 1]? =
      some (.text (b.x_max - 20, b.y_max - 20)
        (lab ++ str " (" ++ format2f s ++ str ")") (str "yellow")) := by
  induction i generalizing boxes labels scores with
  | zero =>
    cases boxes with
    | nil => simp at hb
    | cons b0 bs =>
      cases labels with
      | nil => simp at hl
      | cons l0 ls2 =>
        cases scores with
        | nil => simp at hs
        | cons s0 ss =>
          simp only [List.getElem?_cons_zero, Option.some_inj] at hb hl hs
          subst hb
          subst hl
          subst hs
          rw [draw_boxes_cons]
          refine ⟨?_, ?_⟩ <;> simp
  | succ j ih =>
    cases boxes with
    | nil => simp at hb
    | cons b0 bs =>
      cases labels with
      | nil => simp at hl
      | cons l0 ls2 =>
        cases scores with
        | nil => simp at hs
        | cons s0 ss =>
          simp only [List.getElem?_cons_succ] at hb hl hs
          rw [draw_boxes_cons]
          have h1 : 2 * (j + 1) = (2 * j + 1) + 1 := by omega
          rw [h1]
          simp only [List.getElem?_cons_succ]
          exact ih bs ls2 ss hb hl hs

/-- Witness for C8: the spec's example box with label "tree" and score
0.578 yields a rectangle at exactly those corners and the overlay text
"tree (0.58)" at the offset position. -/
theorem C8_draw_commands_witness :
    (draw_boxes [⟨219.5, 236.4, 246.0, 276.9⟩] [str "tree"] [0.578])[0]? =
      some (.rectangle [219.5, 236.4, 246.0, 276.9] (str "red") 3) ∧
    (draw_boxes [⟨219.5, 236.4, 246.0, 276.9⟩] [str "tree"] [0.578])[1]? =
      some (.text (226.0, 256.9) (str "tree (0.58)") (str "yellow")) := by
  obtain ⟨h1, h2⟩ := C8_draw_commands [⟨219.5, 236.4, 246.0, 276.9⟩]
    [str "tree"] [0.578] 0 ⟨219.5, 236.4, 246.0, 276.9⟩ (str "tree") 0.578
    rfl rfl rfl
  have hfmt : format2f (0.578 : ℚ) = str "0.58" := by
    have hfl : ⌊(0.578 : ℚ) * 100 + 1 / 2⌋ = 58 := by norm_num
    simp only [format2f, hfl]
    decide
  have htxt : str "tree" ++ str " (" ++ str "0.58" ++ str ")" =
      str "tree (0.58)" := by decide
  have hx : (246.0 : ℚ) - 20 = 226.0 := by norm_num
  have hy : (276.9 : ℚ) - 20 = 256.9 := by norm_num
  dsimp only at h1 h2
  rw [hfmt, htxt, hx, hy] at h2
  exact ⟨h1, h2⟩

/-- C9: Every run of `prepare_data` that reaches its final logging
statement has already written both `train.json` and `test.json` with the
complete split of the shuffled records, and then fails with `NameError`
on the undefined variable `val_data`; no run of `prepare_data` ever
returns normally. -/
theorem C9_val_data_name_error (raw : List RawRecord) (c : Config)
    (ls : List PyStr) :
    (∀ e tr te, prepare_data e raw c ls ≠ .done tr te) ∧
    (∀ ps, processRecords ls raw = some ps →
      ∃ tr te, prepare_data true raw c ls = .nameError tr te ∧
        tr ++ te = pyShuffle c.seed ps) := by
  constructor
  · intro e tr te
    cases e with
    | false => simp [prepare_data]
    | true =>
      simp only [prepare_data, Bool.not_true, Bool.false_eq_true, if_false]
      cases h : processRecords ls raw with
      | none => simp
      | some ps => simp
  · intro ps hps
    refine ⟨(pyShuffle c.seed ps).take
        ((pyInt (((pyShuffle c.seed ps).length : ℚ) * c.train_split)).toNat),
      (pyShuffle c.seed ps).drop
        ((pyInt (((pyShuffle c.seed ps).length : ℚ) * c.train_split)).toNat),
      ?_, List.take_append_drop _ _⟩
    simp only [prepare_data, Bool.not_true, Bool.false_eq_true, if_false, hps]

/-- Witness for C9: a concrete run never returns the normal outcome. -/
theorem C9_val_data_name_error_witness :
    prepare_data true [⟨some (str "translate"), str "Hi"⟩] ⟨42, 8/10⟩
      [str "translate", str "other"] ≠ .done [] [] :=
  (C9_val_data_name_error [⟨some (str "translate"), str "Hi"⟩] ⟨42, 8/10⟩
    [str "translate", str "other"]).1 true [] []

/-- C10: A raw record with no "task" field is treated as if its task were
the string "other": when "other" is in the configured label list the
record is assigned the "other" index and processing continues normally. -/
theorem C10_missing_task_field (ls : List PyStr) (item : RawRecord)
    (rest : List RawRecord) (ht : item.task = none)
    (ho : (str "other") ∈ ls) :
    processRecords ls (item :: rest) =
      (processRecords ls rest).map
        (fun tl => ⟨clean_text item.query, pyIndex ls (str "other")⟩ :: tl) := by
  simp only [processRecords, ht, Option.getD_none, if_pos ho]

/-- Witness for C10: a record without a task field is mapped to the
"other" index and the run continues. -/
theorem C10_missing_task_field_witness :
    processRecords [str "other"] [⟨none, str "Hi"⟩] = some [⟨str "hi", 0⟩] := by
  rw [C10_missing_task_field [str "other"] ⟨none, str "Hi"⟩ [] rfl (by decide)]
  decide

/-- Witness for C1: with observed labels `[3, 1, 3]` the mapping sends 3
to id 0 and id 0 back to 3. -/
theorem C1_label_mapping_bijection_witness :
    (label_to_id [3, 1, 3]).lookup 3 = some 1 ∧
    (id_to_label (label_to_id [3, 1, 3])).lookup 1 = some 3 := by
  have hl : (label_to_id [3, 1, 3]).lookup 3 = some 1 := by decide
  exact ⟨hl, (C1_label_mapping_bijection [3, 1, 3]).2.2.2.1 3 1 hl⟩
